import Mathlib

/-!
Verification of the SignalProcessing library (Rust sources
`src/lib.rs` and `src/signal.rs`) against its natural-language
specification.

Shallow embedding conventions:
- A signal is a `List α` of its samples (`src/lib.rs` fixes the sample
  type to `i32`, `src/signal.rs` to `f64`; the two files define
  structurally identical operations, so the shared operations are
  embedded once over a commutative ring `α` and instantiated at `ℤ`,
  respectively `ℝ`, in the theorems).
- The Rust `Index<usize>` read becomes `sgetU`, the `Index<i32>` read
  becomes `sgetI` (machine indices are modelled as `ℕ` / `ℤ`).
- The only fallible arithmetic in the sources is the `usize`
  expression `n + m - 1` inside `fold`, which underflows when both
  inputs are empty; `fold` therefore returns an `Option`, with `none`
  standing for the overflow-checked (debug-profile) panic of that
  subtraction.  All other operations are straight-line total code and
  become total Lean functions.
- `Int.tdiv` is truncation towards zero, exactly the semantics of the
  Rust `/` operator on `i32`.
-/

namespace SignalProcessing

/-- Embedding of `impl Index<usize> for AperiodicSignal`
(`src/lib.rs` lines 36-46 / `src/signal.rs` lines 36-46):
`if index >= self.len() { &0 } else { &self.values[index] }`. -/
def sgetU {α : Type} [CommRing α] (s : List α) (index : ℕ) : α :=
  if s.length ≤ index then 0 else s.getD index 0

/-- Embedding of `impl Index<i32> for AperiodicSignal`
(`src/lib.rs` lines 48-58 / `src/signal.rs` lines 48-58):
`if index < 0 || index >= self.len() as i32 { &0 } else { &self.values[index as usize] }`. -/
def sgetI {α : Type} [CommRing α] (s : List α) (index : ℤ) : α :=
  if index < 0 ∨ (s.length : ℤ) ≤ index then 0 else s.getD index.toNat 0

/-- Embedding of `Signal::fold` (`src/lib.rs` lines 6-18 /
`src/signal.rs` lines 6-18).  The output index `i` runs over
`0..(n + m - 1)`; entry `i` accumulates `rhs[j] * self[i - j]` for
`j` in `0..m`, both reads going through the `i32` (zero-padded)
index.  The bound `n + m - 1` is computed in `usize`, so when both
signals are empty the subtraction underflows: under overflow-checked
arithmetic the call panics, modelled as `none`. -/
def fold {α : Type} [CommRing α] (self rhs : List α) : Option (List α) :=
  if self.length + rhs.length = 0 then none
  else
    some ((List.range (self.length + rhs.length - 1)).map fun (i : ℕ) =>
      ∑ j ∈ Finset.range rhs.length,
        sgetI rhs (j : ℤ) * sgetI self ((i : ℤ) - (j : ℤ)))

/-- Embedding of `impl Add for AperiodicSignal` (`src/lib.rs` lines
60-69 / `src/signal.rs` lines 60-69): the loop runs over
`0..self.len()` and pushes `self[i] + rhs[i]`, both through the
`usize` (zero-padded) read.  Note the loop bound is the length of the
left operand, not the maximum of the two lengths. -/
def addSig {α : Type} [CommRing α] (self rhs : List α) : List α :=
  (List.range self.length).map fun i => sgetU self i + sgetU rhs i

/-- The element-wise sum of a collection of signals, combined with the
`add` operation of the library, as used by the reconstruction
properties of the specification (sum of the outputs of a
decomposition).  An empty collection sums to the empty signal. -/
def sumSigs {α : Type} [CommRing α] (l : List (List α)) : List α :=
  match l with
  | [] => []
  | h :: t => t.foldl addSig h

/-- Embedding of `impulse_decomposition` (`src/lib.rs` lines 71-79):
for each `i` in `0..n`, output a vector of `n` zeros with position `i`
set to `signal[i]` (read through the `usize` index). -/
def impulse_decomposition (signal : List ℤ) : List (List ℤ) :=
  (List.range signal.length).map fun i =>
    (List.replicate signal.length (0 : ℤ)).set i (sgetU signal i)

/-- Embedding of `step_decomposition` (`src/lib.rs` lines 81-93):
the first output is a vector of `n` zeros; for each `i` in `1..n`,
with `diff = signal[i] - signal[i-1]`, output the vector of length `n`
whose positions `j` with `i <= j < n` hold `diff` and whose earlier
positions hold `0`. -/
def step_decomposition (signal : List ℤ) : List (List ℤ) :=
  List.replicate signal.length (0 : ℤ) ::
    (List.range' 1 (signal.length - 1)).map fun i =>
      (List.range signal.length).map fun j =>
        if i ≤ j then sgetU signal i - sgetU signal (i - 1) else 0

/-- Embedding of `even_odd_decomposition` (`src/lib.rs` lines 95-111):
`even` starts with `signal[0]` (zero-padded `usize` read), `odd`
starts with `0`; for `i` in `1..n` the code pushes
`(signal[i % n] + signal[(n - i) % n]) / 2` onto `even` and
`(signal[i % n] - signal[(n - i) % n]) / 2` onto `odd`, with the `i32`
division `/` truncating towards zero (`Int.tdiv`). -/
def even_odd_decomposition (signal : List ℤ) : List (List ℤ) :=
  [sgetU signal 0 ::
     (List.range' 1 (signal.length - 1)).map (fun i =>
       Int.tdiv
         (sgetU signal (i % signal.length) +
           sgetU signal ((signal.length - i) % signal.length)) 2),
   (0 : ℤ) ::
     (List.range' 1 (signal.length - 1)).map (fun i =>
       Int.tdiv
         (sgetU signal (i % signal.length) -
           sgetU signal ((signal.length - i) % signal.length)) 2)]

/-- Modelled from the spec: the repository source under `src/` contains
no DFT implementation (the spec describes a real DFT entry point that
is not present in the two source files), so the cosine-amplitude
spectrum is modelled from the words of the specification: for each
frequency index `k` in `0..(n/2 + 1)` (integer division),
`cos_amplitude[k] = sum over t from 0 to n inclusive of
s[t] * cos(2*pi*k*t/n)`, with `s[t]` the zero-padded read (so the
`t = n` term contributes 0). -/
noncomputable def dft_cos (s : List ℝ) : List ℝ :=
  (List.range (s.length / 2 + 1)).map fun (k : ℕ) =>
    ∑ t ∈ Finset.range (s.length + 1),
      sgetU s t * Real.cos (2 * Real.pi * (k : ℝ) * (t : ℝ) / (s.length : ℝ))

/-- Modelled from the spec: the sine-amplitude spectrum of the real
DFT entry point, which is likewise absent from `src/`:
`sin_amplitude[k] = sum over t from 0 to n inclusive of
s[t] * sin(2*pi*k*t/n)` for `k` in `0..(n/2 + 1)`. -/
noncomputable def dft_sin (s : List ℝ) : List ℝ :=
  (List.range (s.length / 2 + 1)).map fun (k : ℕ) =>
    ∑ t ∈ Finset.range (s.length + 1),
      sgetU s t * Real.sin (2 * Real.pi * (k : ℝ) * (t : ℝ) / (s.length : ℝ))

/-- In-bounds `usize` read returns the stored sample. -/
theorem sgetU_lt {α : Type} [CommRing α] (s : List α) (i : ℕ)
    (h : i < s.length) : sgetU s i = s[i] := by
  unfold sgetU
  rw [if_neg (Nat.not_le.2 h), List.getD_eq_getElem s 0 h]

/-- Out-of-bounds `usize` read returns zero. -/
theorem sgetU_ge {α : Type} [CommRing α] (s : List α) (i : ℕ)
    (h : s.length ≤ i) : sgetU s i = 0 := by
  unfold sgetU
  rw [if_pos h]

/-- Negative `i32` read returns zero. -/
theorem sgetI_neg {α : Type} [CommRing α] (s : List α) (i : ℤ)
    (h : i < 0) : sgetI s i = 0 := by
  unfold sgetI
  rw [if_pos (Or.inl h)]

/-- Too-large `i32` read returns zero. -/
theorem sgetI_ge {α : Type} [CommRing α] (s : List α) (i : ℤ)
    (h : (s.length : ℤ) ≤ i) : sgetI s i = 0 := by
  unfold sgetI
  rw [if_pos (Or.inr h)]

/-- The `i32` read at a natural index agrees with the `usize` read. -/
theorem sgetI_natCast {α : Type} [CommRing α] (s : List α) (i : ℕ) :
    sgetI s (i : ℤ) = sgetU s i := by
  unfold sgetI sgetU
  rcases Nat.lt_or_ge i s.length with h | h
  · rw [if_neg, if_neg (Nat.not_le.2 h), Int.toNat_ofNat]
    push_neg
    exact ⟨Int.natCast_nonneg i, by exact_mod_cast h⟩
  · rw [if_pos (Or.inr (by exact_mod_cast h)), if_pos h]

/-- In-bounds `i32` read returns the stored sample. -/
theorem sgetI_lt {α : Type} [CommRing α] (s : List α) (i : ℕ)
    (h : i < s.length) : sgetI s (i : ℤ) = s[i] := by
  rw [sgetI_natCast, sgetU_lt s i h]

/-- In-bounds `usize` read, phrased with a defaulted lookup. -/
theorem sgetU_eq_getD {α : Type} [CommRing α] (s : List α) (i : ℕ)
    (h : i < s.length) : sgetU s i = s.getD i 0 := by
  unfold sgetU
  rw [if_neg (Nat.not_le.2 h)]

/-- The library addition keeps the length of its left operand. -/
theorem addSig_length {α : Type} [CommRing α] (a b : List α) :
    (addSig a b).length = a.length := by
  unfold addSig
  rw [List.length_map, List.length_range]

/-- Entry `j < a.length` of `addSig a b` is the zero-padded sample sum. -/
theorem sgetU_addSig_lt {α : Type} [CommRing α] (a b : List α) (j : ℕ)
    (h : j < a.length) :
    sgetU (addSig a b) j = sgetU a j + sgetU b j := by
  rw [sgetU_lt _ j (by rw [addSig_length]; exact h)]
  unfold addSig
  rw [List.getElem_map, List.getElem_range]

/-- Folding `addSig` over a collection keeps the accumulator length. -/
theorem foldl_addSig_length {α : Type} [CommRing α] (l : List (List α))
    (acc : List α) : (l.foldl addSig acc).length = acc.length := by
  induction l generalizing acc with
  | nil => rfl
  | cons x t ih => rw [List.foldl_cons, ih, addSig_length]

/-- Entry `j` of a fold of `addSig`: the accumulator entry plus the sum
of the collection entries (all through the zero-padded read). -/
theorem sgetU_foldl_addSig {α : Type} [CommRing α] (l : List (List α))
    (acc : List α) (j : ℕ) (h : j < acc.length) :
    sgetU (l.foldl addSig acc) j =
      sgetU acc j + (l.map fun x => sgetU x j).sum := by
  induction l generalizing acc with
  | nil => simp
  | cons x t ih =>
    rw [List.foldl_cons, ih (addSig acc x) (by rw [addSig_length]; exact h),
      sgetU_addSig_lt acc x j h, List.map_cons, List.sum_cons]
    ring

/-- `sumSigs` of a nonempty collection: length of the head. -/
theorem sumSigs_length_cons {α : Type} [CommRing α] (h : List α)
    (t : List (List α)) : (sumSigs (h :: t)).length = h.length :=
  foldl_addSig_length t h

/-- Entry `j` of `sumSigs` of a nonempty collection. -/
theorem sgetU_sumSigs_cons {α : Type} [CommRing α] (l : List α)
    (t : List (List α)) (j : ℕ) (hj : j < l.length) :
    sgetU (sumSigs (l :: t)) j = sgetU l j + (t.map fun x => sgetU x j).sum :=
  sgetU_foldl_addSig t l j hj

/-- Two signals agreeing on all zero-padded reads below their common
length are equal. -/
theorem eq_of_sgetU {α : Type} [CommRing α] (a b : List α)
    (hlen : a.length = b.length)
    (h : ∀ j < a.length, sgetU a j = sgetU b j) : a = b := by
  apply List.ext_getElem hlen
  intro j h1 h2
  have hj := h j h1
  rwa [sgetU_lt a j h1, sgetU_lt b j h2] at hj

/-- Sum of a mapped `range'` block as a `Finset.range` sum. -/
theorem sum_map_range' {α : Type} [CommRing α] (f : ℕ → α) (s k : ℕ) :
    ((List.range' s k).map f).sum = ∑ i ∈ Finset.range k, f (s + i) := by
  induction k generalizing s with
  | zero => simp
  | succ k ih =>
    rw [List.range'_succ, List.map_cons, List.sum_cons, ih (s + 1),
      Finset.sum_range_succ', Nat.add_zero, add_comm]
    congr 1
    exact Finset.sum_congr rfl fun i _ => by congr 1; omega

/-- A mapped `range` splits off its first element when the range is
nonempty. -/
theorem map_range_eq_cons {β : Type} (f : ℕ → β) (n : ℕ) (hn : 1 ≤ n) :
    (List.range n).map f = f 0 :: (List.range' 1 (n - 1)).map f := by
  obtain ⟨k, rfl⟩ : ∃ k, n = k + 1 := ⟨n - 1, by omega⟩
  rw [List.range_eq_range', List.range'_succ, List.map_cons]
  congr 1

/-- C2: for every signal `s` and every integer index (signed `i` or
unsigned `j`), the indexed read never fails: it returns the stored
sample when the index is within `0 ≤ i < len s` and the additive
identity when the index is negative or at least `len s`. -/
theorem index_read_total {α : Type} [CommRing α] (s : List α) (i : ℤ)
    (j : ℕ) :
    (0 ≤ i → i < (s.length : ℤ) → sgetI s i = s.getD i.toNat 0) ∧
    (i < 0 ∨ (s.length : ℤ) ≤ i → sgetI s i = 0) ∧
    (j < s.length → sgetU s j = s.getD j 0) ∧
    (s.length ≤ j → sgetU s j = 0) := by
  refine ⟨fun h1 h2 => ?_, fun h => ?_, fun h => sgetU_eq_getD s j h,
    fun h => sgetU_ge s j h⟩
  · unfold sgetI
    rw [if_neg (by push_neg; exact ⟨h1, h2⟩)]
  · rcases h with h | h
    · exact sgetI_neg s i h
    · exact sgetI_ge s i h

/-- Witness for C2 at a concrete signal and concrete indices. -/
theorem index_read_total_witness :
    sgetI ([5, 7] : List ℤ) 1 = ([5, 7] : List ℤ).getD (1 : ℤ).toNat 0 ∧
    sgetI ([5, 7] : List ℤ) (-1) = 0 ∧
    sgetI ([5, 7] : List ℤ) 2 = 0 ∧
    sgetU ([5, 7] : List ℤ) 0 = ([5, 7] : List ℤ).getD 0 0 ∧
    sgetU ([5, 7] : List ℤ) 9 = 0 :=
  ⟨(index_read_total [5, 7] 1 0).1 (by decide) (by decide),
   (index_read_total [5, 7] (-1) 0).2.1 (Or.inl (by decide)),
   (index_read_total [5, 7] 2 0).2.1 (Or.inr (by decide)),
   (index_read_total [5, 7] 1 0).2.2.1 (by decide),
   (index_read_total [5, 7] 1 9).2.2.2 (by decide)⟩

/-- C1: for signals of lengths `n` and `m` with `n + m ≥ 1`, `fold`
returns a signal of length `n + m - 1` whose entry `i` is the
convolution sum `sum over j in 0..m of rhs[j] * self[i - j]` with the
zero-padded (`i32`) reads. -/
theorem fold_conv_spec {α : Type} [CommRing α] (self rhs : List α)
    (h : 1 ≤ self.length + rhs.length) :
    ∃ out, fold self rhs = some out ∧
      out.length = self.length + rhs.length - 1 ∧
      ∀ i < self.length + rhs.length - 1,
        out.getD i 0 =
          ∑ j ∈ Finset.range rhs.length,
            sgetI rhs (j : ℤ) * sgetI self ((i : ℤ) - (j : ℤ)) := by
  unfold fold
  rw [if_neg (by omega)]
  refine ⟨_, rfl, ?_, ?_⟩
  · rw [List.length_map, List.length_range]
  · intro i hi
    rw [List.getD_eq_getElem _ 0
      (by rw [List.length_map, List.length_range]; exact hi)]
    rw [List.getElem_map, List.getElem_range]

/-- Witness for C1 at `self = [1, 2, 3]`, `rhs = [1]`. -/
theorem fold_conv_spec_witness :
    1 ≤ ([1, 2, 3] : List ℤ).length + ([1] : List ℤ).length ∧
    (∃ out, fold ([1, 2, 3] : List ℤ) [1] = some out ∧
      out.length = ([1, 2, 3] : List ℤ).length + ([1] : List ℤ).length - 1 ∧
      ∀ i < ([1, 2, 3] : List ℤ).length + ([1] : List ℤ).length - 1,
        out.getD i 0 =
          ∑ j ∈ Finset.range ([1] : List ℤ).length,
            sgetI ([1] : List ℤ) (j : ℤ) *
              sgetI ([1, 2, 3] : List ℤ) ((i : ℤ) - (j : ℤ))) :=
  ⟨by decide, fold_conv_spec [1, 2, 3] [1] (by decide)⟩

/-- C3 counterexample: when the right operand is strictly longer, the
library addition does not produce a signal of the maximum length; at
`[1] + [2, 3]` the result is `[3]`, of length 1, not `max 1 2 = 2`. -/
theorem add_max_len_counterexample :
    addSig ([1] : List ℤ) [2, 3] = [3] ∧
    (addSig ([1] : List ℤ) [2, 3]).length ≠
      max ([1] : List ℤ).length ([2, 3] : List ℤ).length := by
  decide

/-- C3 amended: `addSig a b` has the length of its left operand; each
entry is the sample-wise sum with the right operand read zero-padded.
When `len b ≤ len a` this coincides with the claimed behaviour
(length `max (len a) (len b)`, sample-wise sum with zero-extension);
when `b` is strictly longer, the tail of `b` is dropped. -/
theorem add_zero_extend_amended {α : Type} [CommRing α] (a b : List α) :
    (addSig a b).length = a.length ∧
    (∀ i < a.length, (addSig a b).getD i 0 = sgetU a i + sgetU b i) ∧
    (b.length ≤ a.length →
      (addSig a b).length = max a.length b.length ∧
      ∀ i : ℕ, sgetU (addSig a b) i = sgetU a i + sgetU b i) := by
  refine ⟨addSig_length a b, fun i hi => ?_, fun hba => ⟨?_, fun i => ?_⟩⟩
  · rw [← sgetU_eq_getD _ i (by rw [addSig_length]; exact hi)]
    exact sgetU_addSig_lt a b i hi
  · rw [addSig_length, Nat.max_eq_left hba]
  · rcases Nat.lt_or_ge i a.length with hi | hi
    · exact sgetU_addSig_lt a b i hi
    · rw [sgetU_ge _ i (by rw [addSig_length]; exact hi), sgetU_ge a i hi,
        sgetU_ge b i (le_trans hba hi), add_zero]

/-- Witness for C3 amended at `[1, 4, 8, 3] + [2, 3]`. -/
theorem add_zero_extend_amended_witness :
    (addSig ([1, 4, 8, 3] : List ℤ) [2, 3]).length =
      ([1, 4, 8, 3] : List ℤ).length ∧
    (∀ i < ([1, 4, 8, 3] : List ℤ).length,
      (addSig ([1, 4, 8, 3] : List ℤ) [2, 3]).getD i 0 =
        sgetU ([1, 4, 8, 3] : List ℤ) i + sgetU ([2, 3] : List ℤ) i) ∧
    (([2, 3] : List ℤ).length ≤ ([1, 4, 8, 3] : List ℤ).length →
      (addSig ([1, 4, 8, 3] : List ℤ) [2, 3]).length =
        max ([1, 4, 8, 3] : List ℤ).length ([2, 3] : List ℤ).length ∧
      ∀ i : ℕ, sgetU (addSig ([1, 4, 8, 3] : List ℤ) [2, 3]) i =
        sgetU ([1, 4, 8, 3] : List ℤ) i + sgetU ([2, 3] : List ℤ) i) :=
  add_zero_extend_amended [1, 4, 8, 3] [2, 3]

/-- Entry `j` of the sum of a mapped nonempty `range` of signals. -/
theorem sgetU_sumSigs_map_range (g : ℕ → List ℤ) (n j : ℕ) (hn : 1 ≤ n)
    (hj : j < (g 0).length) :
    sgetU (sumSigs ((List.range n).map g)) j =
      ∑ i ∈ Finset.range n, sgetU (g i) j := by
  obtain ⟨k, rfl⟩ : ∃ k, n = k + 1 := ⟨n - 1, by omega⟩
  rw [map_range_eq_cons g (k + 1) hn, Nat.add_sub_cancel,
    sgetU_sumSigs_cons _ _ j hj, List.map_map, sum_map_range' _ 1 k,
    Finset.sum_range_succ', add_comm]
  congr 1
  exact Finset.sum_congr rfl fun i _ => by
    simp only [Function.comp_apply]
    rw [Nat.add_comm]

/-- Entry `j` of the `i`-th impulse component. -/
theorem impulse_entry (s : List ℤ) (i j : ℕ) (hj : j < s.length) :
    sgetU ((List.replicate s.length (0 : ℤ)).set i (sgetU s i)) j =
      if j = i then sgetU s i else 0 := by
  rw [sgetU_lt _ j (by rw [List.length_set, List.length_replicate]; exact hj),
    List.getElem_set]
  rcases eq_or_ne i j with rfl | hne
  · rw [if_pos rfl, if_pos rfl]
  · rw [if_neg hne, List.getElem_replicate, if_neg (Ne.symm hne)]

/-- Entry `j` of the `i`-th step component. -/
theorem step_entry (s : List ℤ) (i j : ℕ) (hj : j < s.length) :
    sgetU ((List.range s.length).map fun j' =>
        if i ≤ j' then sgetU s i - sgetU s (i - 1) else 0) j =
      if i ≤ j then sgetU s i - sgetU s (i - 1) else 0 := by
  rw [sgetU_lt _ j (by rw [List.length_map, List.length_range]; exact hj),
    List.getElem_map, List.getElem_range]

/-- A truncated telescoping sum collapses to a difference. -/
theorem sum_ite_lt_telescope (F : ℕ → ℤ) (m j : ℕ) (hj : j ≤ m) :
    (∑ i ∈ Finset.range m, if i < j then F (i + 1) - F i else 0) =
      F j - F 0 := by
  rw [← Finset.sum_range_sub F j,
    ← Finset.sum_subset (Finset.range_subset.2 hj)
      (fun x _ hx => if_neg (by simpa using hx))]
  exact Finset.sum_congr rfl fun x hx => if_pos (Finset.mem_range.1 hx)

/-- C5: `impulse_decomposition` returns exactly `n` signals of length
`n`; the `i`-th has `s[i]` at position `i` and zero elsewhere, and
their element-wise sum reconstructs `s` exactly. -/
theorem impulse_decomposition_spec (s : List ℤ) :
    (impulse_decomposition s).length = s.length ∧
    (∀ i < s.length,
      ((impulse_decomposition s).getD i []).length = s.length ∧
      ∀ j < s.length,
        sgetU ((impulse_decomposition s).getD i []) j =
          if j = i then s.getD i 0 else 0) ∧
    sumSigs (impulse_decomposition s) = s := by
  have hlen : (impulse_decomposition s).length = s.length := by
    unfold impulse_decomposition
    rw [List.length_map, List.length_range]
  have hout : ∀ i < s.length, (impulse_decomposition s).getD i [] =
      (List.replicate s.length (0 : ℤ)).set i (sgetU s i) := by
    intro i hi
    unfold impulse_decomposition
    rw [List.getD_eq_getElem _ _
      (by rw [List.length_map, List.length_range]; exact hi),
      List.getElem_map, List.getElem_range]
  refine ⟨hlen, fun i hi => ⟨?_, fun j hj => ?_⟩, ?_⟩
  · rw [hout i hi, List.length_set, List.length_replicate]
  · rw [hout i hi, impulse_entry s i j hj]
    rcases eq_or_ne j i with rfl | hne
    · rw [if_pos rfl, if_pos rfl, sgetU_eq_getD s j hi]
    · rw [if_neg hne, if_neg hne]
  · rcases Nat.eq_zero_or_pos s.length with h0 | hpos
    · rw [List.length_eq_zero.mp h0]
      rfl
    · apply eq_of_sgetU
      · have hc := map_range_eq_cons
          (fun i => (List.replicate s.length (0 : ℤ)).set i (sgetU s i))
          s.length hpos
        unfold impulse_decomposition
        rw [hc, sumSigs_length_cons, List.length_set, List.length_replicate]
      · intro j hj
        have hj' : j < s.length := by
          have hc := map_range_eq_cons
            (fun i => (List.replicate s.length (0 : ℤ)).set i (sgetU s i))
            s.length hpos
          unfold impulse_decomposition at hj
          rwa [hc, sumSigs_length_cons, List.length_set,
            List.length_replicate] at hj
        unfold impulse_decomposition
        rw [sgetU_sumSigs_map_range _ s.length j hpos
          (by rw [List.length_set, List.length_replicate]; exact hj')]
        have hterm : (∑ i ∈ Finset.range s.length,
            sgetU ((List.replicate s.length (0 : ℤ)).set i (sgetU s i)) j) =
            ∑ i ∈ Finset.range s.length, if j = i then sgetU s i else 0 :=
          Finset.sum_congr rfl fun i _ => impulse_entry s i j hj'
        rw [hterm, Finset.sum_ite_eq, if_pos (Finset.mem_range.2 hj')]

/-- Witness for C5 at `s = [4, 2, 5]`. -/
theorem impulse_decomposition_spec_witness :
    (impulse_decomposition [4, 2, 5]).length = ([4, 2, 5] : List ℤ).length ∧
    (∀ i < ([4, 2, 5] : List ℤ).length,
      ((impulse_decomposition [4, 2, 5]).getD i []).length =
        ([4, 2, 5] : List ℤ).length ∧
      ∀ j < ([4, 2, 5] : List ℤ).length,
        sgetU ((impulse_decomposition [4, 2, 5]).getD i []) j =
          if j = i then ([4, 2, 5] : List ℤ).getD i 0 else 0) ∧
    sumSigs (impulse_decomposition [4, 2, 5]) = [4, 2, 5] :=
  impulse_decomposition_spec [4, 2, 5]

/-- C4 counterexample: the element-wise sum of the step decomposition
of `[4, 2, 5]` is `[0, -2, 1]`, not `[4, 2, 5]`: the first bin is all
zeros, so `s[0]` is not reproduced. -/
theorem step_sum_counterexample :
    sumSigs (step_decomposition [4, 2, 5]) = [0, -2, 1] ∧
    sumSigs (step_decomposition [4, 2, 5]) ≠ [4, 2, 5] := by
  decide

/-- C4 amended: the outputs are constructed as claimed (bin 0 all
zeros; bin `i` a right-sided step of height `s[i] - s[i-1]` starting
at `i`), but their element-wise sum reconstructs `s` only up to the
constant `s[0]`: at every position `j` the sum equals
`s[j] - s[0]` (so it equals `s` exactly iff `s[0] = 0`). -/
theorem step_sum_amended (s : List ℤ) (h : 1 ≤ s.length) :
    (step_decomposition s).length = s.length ∧
    (step_decomposition s).getD 0 [] = List.replicate s.length 0 ∧
    (∀ i, 1 ≤ i → i < s.length → ∀ j < s.length,
      sgetU ((step_decomposition s).getD i []) j =
        if i ≤ j then s.getD i 0 - s.getD (i - 1) 0 else 0) ∧
    (∀ j < s.length,
      sgetU (sumSigs (step_decomposition s)) j = s.getD j 0 - s.getD 0 0) := by
  refine ⟨?_, rfl, fun i hi1 hin j hj => ?_, fun j hj => ?_⟩
  · unfold step_decomposition
    rw [List.length_cons, List.length_map, List.length_range']
    omega
  · obtain ⟨k, rfl⟩ : ∃ k, i = k + 1 := ⟨i - 1, by omega⟩
    unfold step_decomposition
    rw [List.getD_cons_succ, List.getD_eq_getElem _ _
        (by rw [List.length_map, List.length_range']; omega),
      List.getElem_map, List.getElem_range']
    have hidx : (1 : ℕ) + 1 * k = k + 1 := by omega
    rw [hidx, step_entry s (k + 1) j hj, Nat.add_sub_cancel,
      sgetU_eq_getD s (k + 1) hin,
      sgetU_eq_getD s k (by omega)]
  · unfold step_decomposition
    rw [sgetU_sumSigs_cons _ _ j (by rw [List.length_replicate]; exact hj),
      sgetU_lt _ j (by rw [List.length_replicate]; exact hj),
      List.getElem_replicate, List.map_map, sum_map_range' _ 1 (s.length - 1)]
    have hterm : (∑ i ∈ Finset.range (s.length - 1),
        ((fun x => sgetU x j) ∘ fun i => (List.range s.length).map fun j' =>
          if i ≤ j' then sgetU s i - sgetU s (i - 1) else 0) (1 + i)) =
        ∑ i ∈ Finset.range (s.length - 1),
          if i < j then sgetU s (i + 1) - sgetU s i else 0 := by
      refine Finset.sum_congr rfl fun i _ => ?_
      simp only [Function.comp_apply]
      rw [step_entry s (1 + i) j hj, Nat.add_comm 1 i, Nat.add_sub_cancel]
      rcases Nat.lt_or_ge i j with hij | hij
      · rw [if_pos (by omega), if_pos hij]
      · rw [if_neg (by omega), if_neg (by omega)]
    rw [hterm, sum_ite_lt_telescope (fun t => sgetU s t) (s.length - 1) j
        (by omega)]
    rw [sgetU_eq_getD s j hj, sgetU_eq_getD s 0 (by omega), zero_add]

/-- Witness for C4 amended at `s = [4, 2, 5]`. -/
theorem step_sum_amended_witness :
    1 ≤ ([4, 2, 5] : List ℤ).length ∧
    ((step_decomposition [4, 2, 5]).length = ([4, 2, 5] : List ℤ).length ∧
    (step_decomposition [4, 2, 5]).getD 0 [] =
      List.replicate ([4, 2, 5] : List ℤ).length 0 ∧
    (∀ i, 1 ≤ i → i < ([4, 2, 5] : List ℤ).length →
      ∀ j < ([4, 2, 5] : List ℤ).length,
      sgetU ((step_decomposition [4, 2, 5]).getD i []) j =
        if i ≤ j then ([4, 2, 5] : List ℤ).getD i 0 -
          ([4, 2, 5] : List ℤ).getD (i - 1) 0 else 0) ∧
    (∀ j < ([4, 2, 5] : List ℤ).length,
      sgetU (sumSigs (step_decomposition [4, 2, 5])) j =
        ([4, 2, 5] : List ℤ).getD j 0 - ([4, 2, 5] : List ℤ).getD 0 0)) :=
  ⟨by decide, step_sum_amended [4, 2, 5] (by decide)⟩

/-- C6: `even_odd_decomposition` returns the two signals `ev` and
`od`, each of length `n`, with `ev[0] = s[0]`, `od[0] = 0`, and for
`1 ≤ i < n` the entries `(s[i] + s[(n-i) mod n]) / 2` and
`(s[i] - s[(n-i) mod n]) / 2`, the division truncating towards zero
(`Int.tdiv`, the semantics of the Rust `i32` division). -/
theorem even_odd_spec (s : List ℤ) (h : 1 ≤ s.length) :
    ∃ ev od, even_odd_decomposition s = [ev, od] ∧
      ev.length = s.length ∧ od.length = s.length ∧
      ev.getD 0 0 = s.getD 0 0 ∧ od.getD 0 0 = 0 ∧
      ∀ i, 1 ≤ i → i < s.length →
        ev.getD i 0 =
          Int.tdiv (s.getD i 0 + s.getD ((s.length - i) % s.length) 0) 2 ∧
        od.getD i 0 =
          Int.tdiv (s.getD i 0 - s.getD ((s.length - i) % s.length) 0) 2 := by
  refine ⟨_, _, rfl, ?_, ?_, ?_, ?_, fun i hi1 hin => ⟨?_, ?_⟩⟩
  · rw [List.length_cons, List.length_map, List.length_range']
    omega
  · rw [List.length_cons, List.length_map, List.length_range']
    omega
  · rw [List.getD_cons_zero, sgetU_eq_getD s 0 (by omega)]
  · rw [List.getD_cons_zero]
  · obtain ⟨k, rfl⟩ : ∃ k, i = k + 1 := ⟨i - 1, by omega⟩
    rw [List.getD_cons_succ, List.getD_eq_getElem _ _
        (by rw [List.length_map, List.length_range']; omega),
      List.getElem_map, List.getElem_range']
    have hidx : (1 : ℕ) + 1 * k = k + 1 := by omega
    rw [hidx, Nat.mod_eq_of_lt hin, sgetU_eq_getD s (k + 1) hin,
      sgetU_eq_getD s ((s.length - (k + 1)) % s.length)
        (Nat.mod_lt _ (by omega))]
  · obtain ⟨k, rfl⟩ : ∃ k, i = k + 1 := ⟨i - 1, by omega⟩
    rw [List.getD_cons_succ, List.getD_eq_getElem _ _
        (by rw [List.length_map, List.length_range']; omega),
      List.getElem_map, List.getElem_range']
    have hidx : (1 : ℕ) + 1 * k = k + 1 := by omega
    rw [hidx, Nat.mod_eq_of_lt hin, sgetU_eq_getD s (k + 1) hin,
      sgetU_eq_getD s ((s.length - (k + 1)) % s.length)
        (Nat.mod_lt _ (by omega))]

/-- Witness for C6 at `s = [4, 1, -3, -4, 10, 5, 7]`, the reference
test vector. -/
theorem even_odd_spec_witness :
    1 ≤ ([4, 1, -3, -4, 10, 5, 7] : List ℤ).length ∧
    (∃ ev od, even_odd_decomposition [4, 1, -3, -4, 10, 5, 7] = [ev, od] ∧
      ev.length = ([4, 1, -3, -4, 10, 5, 7] : List ℤ).length ∧
      od.length = ([4, 1, -3, -4, 10, 5, 7] : List ℤ).length ∧
      ev.getD 0 0 = ([4, 1, -3, -4, 10, 5, 7] : List ℤ).getD 0 0 ∧
      od.getD 0 0 = 0 ∧
      ∀ i, 1 ≤ i → i < ([4, 1, -3, -4, 10, 5, 7] : List ℤ).length →
        ev.getD i 0 = Int.tdiv
          (([4, 1, -3, -4, 10, 5, 7] : List ℤ).getD i 0 +
            ([4, 1, -3, -4, 10, 5, 7] : List ℤ).getD
              ((([4, 1, -3, -4, 10, 5, 7] : List ℤ).length - i) %
                ([4, 1, -3, -4, 10, 5, 7] : List ℤ).length) 0) 2 ∧
        od.getD i 0 = Int.tdiv
          (([4, 1, -3, -4, 10, 5, 7] : List ℤ).getD i 0 -
            ([4, 1, -3, -4, 10, 5, 7] : List ℤ).getD
              ((([4, 1, -3, -4, 10, 5, 7] : List ℤ).length - i) %
                ([4, 1, -3, -4, 10, 5, 7] : List ℤ).length) 0) 2) :=
  ⟨by decide, even_odd_spec [4, 1, -3, -4, 10, 5, 7] (by decide)⟩

/-- C7: convolving `s` with the delayed unit impulse (`k` zeros then a
single `1`) yields `s` shifted right by `k`: `k` leading zeros then
the samples of `s`; for `k = 0` the kernel is `[1]` and `fold` returns
`s` unchanged. -/
theorem fold_delay_shift {α : Type} [CommRing α] (s : List α) (k : ℕ)
    (h : 1 ≤ s.length) :
    fold s (List.replicate k (0 : α) ++ [1]) =
      some (List.replicate k (0 : α) ++ s) ∧
    fold s [1] = some s := by
  have main : ∀ k' : ℕ, fold s (List.replicate k' (0 : α) ++ [1]) =
      some (List.replicate k' (0 : α) ++ s) := by
    intro k'
    have hm : (List.replicate k' (0 : α) ++ [1]).length = k' + 1 := by
      rw [List.length_append, List.length_replicate]
      rfl
    have hker : ∀ b : ℕ, b < k' →
        sgetI (List.replicate k' (0 : α) ++ [1]) (b : ℤ) = 0 := by
      intro b hb
      rw [sgetI_natCast, sgetU_lt _ b (by omega),
        List.getElem_append_left (by rw [List.length_replicate]; exact hb),
        List.getElem_replicate]
    have hker1 : sgetI (List.replicate k' (0 : α) ++ [1]) (k' : ℤ) = 1 := by
      rw [sgetI_natCast, sgetU_lt _ k' (by omega),
        List.getElem_append_right (by rw [List.length_replicate])]
      simp
    unfold fold
    rw [if_neg (by rw [hm]; omega)]
    congr 1
    apply List.ext_getElem
    · rw [List.length_map, List.length_range, hm, List.length_append,
        List.length_replicate]
      omega
    · intro i h1 h2
      rw [List.getElem_map, List.getElem_range, hm]
      rw [Finset.sum_eq_single_of_mem k' (Finset.mem_range.2 (by omega))
        (fun b hb hbne => by
          rw [hker b (by have := Finset.mem_range.1 hb; omega), zero_mul])]
      rw [hker1, one_mul]
      have hi2 : i < k' + s.length := by
        rwa [List.length_append, List.length_replicate] at h2
      rcases Nat.lt_or_ge i k' with hik | hik
      · rw [sgetI_neg s _ (by omega),
          List.getElem_append_left (by rw [List.length_replicate]; exact hik),
          List.getElem_replicate]
      · have hcast : (i : ℤ) - (k' : ℤ) = ((i - k' : ℕ) : ℤ) := by
          omega
        rw [hcast, sgetI_natCast, sgetU_lt s (i - k') (by omega),
          List.getElem_append_right (by rw [List.length_replicate]; exact hik)]
        congr 1
        rw [List.length_replicate]
  refine ⟨main k, ?_⟩
  have h0 := main 0
  rwa [List.replicate_zero, List.nil_append, List.nil_append] at h0

/-- Witness for C7 at `s = [1, 2, 3, 4, 5]`, `k = 2`, the reference
delay test vector. -/
theorem fold_delay_shift_witness :
    1 ≤ ([1, 2, 3, 4, 5] : List ℤ).length ∧
    (fold ([1, 2, 3, 4, 5] : List ℤ) (List.replicate 2 (0 : ℤ) ++ [1]) =
      some (List.replicate 2 (0 : ℤ) ++ [1, 2, 3, 4, 5]) ∧
    fold ([1, 2, 3, 4, 5] : List ℤ) [1] = some [1, 2, 3, 4, 5]) :=
  ⟨by decide, fold_delay_shift [1, 2, 3, 4, 5] 2 (by decide)⟩

/-- C8 counterexample: `fold` applied to two empty signals does not
return a result: the `usize` expression `n + m - 1` underflows, which
under overflow-checked arithmetic is a panic (modelled as `none`). -/
theorem fold_empty_counterexample : fold ([] : List ℤ) [] = none := by
  decide

/-- C8 amended: every public operation except `fold` on two empty
signals is total: construction, the indexed reads, `add` and the three
decompositions return results on every input (witnessed by their
output lengths), and `fold` returns a result exactly when
`n + m ≥ 1`; on two empty signals the unsigned expression `n + m - 1`
underflows and the call panics under checked arithmetic. -/
theorem totality_amended :
    (∀ s r : List ℤ, (fold s r).isSome ↔ 1 ≤ s.length + r.length) ∧
    (∀ s : List ℤ, (impulse_decomposition s).length = s.length ∧
      (step_decomposition s).length = max 1 s.length ∧
      (even_odd_decomposition s).length = 2) ∧
    (∀ a b : List ℤ, (addSig a b).length = a.length) := by
  refine ⟨fun s r => ?_, fun s => ⟨?_, ?_, rfl⟩, fun a b => addSig_length a b⟩
  · unfold fold
    rcases Nat.eq_zero_or_pos (s.length + r.length) with h0 | hpos
    · rw [if_pos h0]
      simp only [Option.isSome_none, Bool.false_eq_true, false_iff]
      omega
    · rw [if_neg (by omega)]
      simp only [Option.isSome_some, true_iff]
      omega
  · unfold impulse_decomposition
    rw [List.length_map, List.length_range]
  · unfold step_decomposition
    rw [List.length_cons, List.length_map, List.length_range']
    omega

/-- Witness for C8 amended at concrete inputs. -/
theorem totality_amended_witness :
    ((fold ([1] : List ℤ) ([] : List ℤ)).isSome ↔
      1 ≤ ([1] : List ℤ).length + ([] : List ℤ).length) ∧
    (impulse_decomposition [7]).length = ([7] : List ℤ).length ∧
    (step_decomposition [7]).length = max 1 ([7] : List ℤ).length ∧
    (even_odd_decomposition [7]).length = 2 ∧
    (addSig ([1, 2] : List ℤ) [5]).length = ([1, 2] : List ℤ).length :=
  ⟨totality_amended.1 [1] [], (totality_amended.2.1 [7]).1,
   (totality_amended.2.1 [7]).2.1, (totality_amended.2.1 [7]).2.2,
   totality_amended.2.2 [1, 2] [5]⟩

/-- C9 counterexample: on the zero-length signal,
`even_odd_decomposition` does not fail with a domain error: it
silently returns two one-sample zero signals (the zero-padded read of
`s[0]` yields `0`), and `step_decomposition` silently returns a
single empty signal. -/
theorem zero_length_silent_counterexample :
    even_odd_decomposition [] = [[0], [0]] ∧
    step_decomposition [] = [[]] := by
  decide

/-- C9 amended: on zero-length input neither operation fails (their
result types carry no error channel and the embedded code reaches no
failing operation): `step_decomposition` returns one signal, the empty
one, and `even_odd_decomposition` returns two signals, each the
one-sample zero signal. -/
theorem zero_length_silent_amended :
    (step_decomposition []).length = 1 ∧
    (step_decomposition []).getD 0 [1] = [] ∧
    (even_odd_decomposition []).length = 2 ∧
    (even_odd_decomposition []).getD 0 [] = [0] ∧
    (even_odd_decomposition []).getD 1 [] = [0] := by
  decide

/-- C10: the real DFT (modelled from the spec, the source containing
no DFT code) returns two spectra of length `n/2 + 1` whose entry `k`
is the amplitude sum `sum over t from 0 to n inclusive of s[t]` times
the cosine, respectively sine, basis value `2*pi*k*t/n`, with `s[n]`
read as zero; for `s = [4, 1, -5, -4]` the cosine amplitudes are
`[-4, 9, 2]`. -/
theorem real_dft_spec (s : List ℝ) (h : 1 ≤ s.length) :
    (dft_cos s).length = s.length / 2 + 1 ∧
    (dft_sin s).length = s.length / 2 + 1 ∧
    (∀ k < s.length / 2 + 1,
      (dft_cos s).getD k 0 =
        ∑ t ∈ Finset.range (s.length + 1),
          sgetU s t * Real.cos (2 * Real.pi * (k : ℝ) * (t : ℝ) /
            (s.length : ℝ)) ∧
      (dft_sin s).getD k 0 =
        ∑ t ∈ Finset.range (s.length + 1),
          sgetU s t * Real.sin (2 * Real.pi * (k : ℝ) * (t : ℝ) /
            (s.length : ℝ))) ∧
    (s = [4, 1, -5, -4] → dft_cos s = [-4, 9, 2]) := by
  refine ⟨?_, ?_, fun k hk => ⟨?_, ?_⟩, fun hs => ?_⟩
  · unfold dft_cos
    rw [List.length_map, List.length_range]
  · unfold dft_sin
    rw [List.length_map, List.length_range]
  · unfold dft_cos
    rw [List.getD_eq_getElem _ _
      (by rw [List.length_map, List.length_range]; exact hk),
      List.getElem_map, List.getElem_range]
  · unfold dft_sin
    rw [List.getD_eq_getElem _ _
      (by rw [List.length_map, List.length_range]; exact hk),
      List.getElem_map, List.getElem_range]
  · subst hs
    unfold dft_cos
    have hlen : ([4, 1, -5, -4] : List ℝ).length = 4 := by norm_num
    rw [hlen]
    norm_num
    rw [show List.range 3 = [0, 1, 2] from rfl, List.map_cons, List.map_cons,
      List.map_cons, List.map_nil]
    have s0 : sgetU ([4, 1, -5, -4] : List ℝ) 0 = 4 := by
      unfold sgetU
      norm_num
    have s1 : sgetU ([4, 1, -5, -4] : List ℝ) 1 = 1 := by
      unfold sgetU
      norm_num
    have s2 : sgetU ([4, 1, -5, -4] : List ℝ) 2 = -5 := by
      unfold sgetU
      norm_num
    have s3 : sgetU ([4, 1, -5, -4] : List ℝ) 3 = -4 := by
      unfold sgetU
      norm_num
    have s4 : sgetU ([4, 1, -5, -4] : List ℝ) 4 = 0 := by
      unfold sgetU
      norm_num
    have e0 : ∑ x ∈ Finset.range 5, sgetU [4, 1, -5, -4] x *
        Real.cos (2 * Real.pi * ((0 : ℕ) : ℝ) * (x : ℝ) / 4) = -4 := by
      rw [Finset.sum_range_succ, Finset.sum_range_succ, Finset.sum_range_succ,
        Finset.sum_range_succ, Finset.sum_range_succ, Finset.sum_range_zero,
        s0, s1, s2, s3, s4]
      rw [show (2 * Real.pi * ((0 : ℕ) : ℝ) * ((0 : ℕ) : ℝ) / 4 : ℝ) = 0 by
          push_cast; ring,
        show (2 * Real.pi * ((0 : ℕ) : ℝ) * ((1 : ℕ) : ℝ) / 4 : ℝ) = 0 by
          push_cast; ring,
        show (2 * Real.pi * ((0 : ℕ) : ℝ) * ((2 : ℕ) : ℝ) / 4 : ℝ) = 0 by
          push_cast; ring,
        show (2 * Real.pi * ((0 : ℕ) : ℝ) * ((3 : ℕ) : ℝ) / 4 : ℝ) = 0 by
          push_cast; ring,
        Real.cos_zero]
      ring_nf
    have e1 : ∑ x ∈ Finset.range 5, sgetU [4, 1, -5, -4] x *
        Real.cos (2 * Real.pi * ((1 : ℕ) : ℝ) * (x : ℝ) / 4) = 9 := by
      rw [Finset.sum_range_succ, Finset.sum_range_succ, Finset.sum_range_succ,
        Finset.sum_range_succ, Finset.sum_range_succ, Finset.sum_range_zero,
        s0, s1, s2, s3, s4]
      rw [show (2 * Real.pi * ((1 : ℕ) : ℝ) * ((0 : ℕ) : ℝ) / 4 : ℝ) = 0 by
          push_cast; ring,
        show (2 * Real.pi * ((1 : ℕ) : ℝ) * ((1 : ℕ) : ℝ) / 4 : ℝ) =
            Real.pi / 2 by push_cast; ring,
        show (2 * Real.pi * ((1 : ℕ) : ℝ) * ((2 : ℕ) : ℝ) / 4 : ℝ) =
            Real.pi by push_cast; ring,
        show (2 * Real.pi * ((1 : ℕ) : ℝ) * ((3 : ℕ) : ℝ) / 4 : ℝ) =
            Real.pi + Real.pi / 2 by push_cast; ring,
        Real.cos_zero, Real.cos_pi_div_two, Real.cos_pi, Real.cos_add,
        Real.cos_pi, Real.sin_pi, Real.cos_pi_div_two, Real.sin_pi_div_two]
      ring_nf
    have e2 : ∑ x ∈ Finset.range 5, sgetU [4, 1, -5, -4] x *
        Real.cos (2 * Real.pi * ((2 : ℕ) : ℝ) * (x : ℝ) / 4) = 2 := by
      rw [Finset.sum_range_succ, Finset.sum_range_succ, Finset.sum_range_succ,
        Finset.sum_range_succ, Finset.sum_range_succ, Finset.sum_range_zero,
        s0, s1, s2, s3, s4]
      rw [show (2 * Real.pi * ((2 : ℕ) : ℝ) * ((0 : ℕ) : ℝ) / 4 : ℝ) = 0 by
          push_cast; ring,
        show (2 * Real.pi * ((2 : ℕ) : ℝ) * ((1 : ℕ) : ℝ) / 4 : ℝ) =
            Real.pi by push_cast; ring,
        show (2 * Real.pi * ((2 : ℕ) : ℝ) * ((2 : ℕ) : ℝ) / 4 : ℝ) =
            2 * Real.pi by push_cast; ring,
        show (2 * Real.pi * ((2 : ℕ) : ℝ) * ((3 : ℕ) : ℝ) / 4 : ℝ) =
            Real.pi + 2 * Real.pi by push_cast; ring,
        Real.cos_zero, Real.cos_pi, Real.cos_two_pi, Real.cos_add_two_pi,
        Real.cos_pi]
      ring_nf
    rw [e0, e1, e2]

/-- Witness for C10 at the reference test vector `s = [4, 1, -5, -4]`. -/
theorem real_dft_spec_witness :
    1 ≤ ([4, 1, -5, -4] : List ℝ).length ∧
    dft_cos [4, 1, -5, -4] = [-4, 9, 2] :=
  ⟨by norm_num, (real_dft_spec [4, 1, -5, -4] (by norm_num)).2.2.2 rfl⟩

end SignalProcessing
